import Mathlib

/-!
Verification of the dot-matrix renderer core (Glass Dots blob-merge engine,
luminance remap, CMYK simulation, circular coverage mask, photo-widget
sampling), shallowly embedded from the TypeScript sources.

Conventions of the embedding:
* JavaScript numbers are modelled as exact rationals (`ℚ`); integer pixel
  channels as `ℤ`; grid coordinates as `ℕ`.
* `Math.sqrt`-based comparisons are embedded squared: for `d ≥ 0`,
  `Real.sqrt d ≤ t ↔ (0 ≤ t ∧ d ≤ t^2)`, which is how every threshold test
  below is phrased.
* Imperative loops become folds or well-founded recursion; the 2-D `visited`
  boolean arrays become a `Finset` of cells.
-/

namespace Matrices

/-- A grid cell coordinate `(x, y)`. -/
abbrev Cell := ℕ × ℕ

/-- The set of cells of the axis-aligned square with top-left corner `(x, y)`
and edge length `s` (in grid cells). -/
def squareCells (x y s : ℕ) : Finset Cell :=
  Finset.Ico x (x + s) ×ˢ Finset.Ico y (y + s)

/-- All cells of a `W × H` grid. -/
def gridCells (W H : ℕ) : Finset Cell :=
  Finset.range W ×ˢ Finset.range H

/-- Row-major enumeration of the cells of a `W × H` grid, matching the
`for (y) for (x)` scan order of `drawGlassDots`. -/
def rowMajor (W H : ℕ) : List Cell :=
  (List.range H).flatMap (fun y => (List.range W).map (fun x => (x, y)))

/-- A blob `{x, y, size}` as produced by the Blob-Merge Engine. -/
structure Blob where
  x : ℕ
  y : ℕ
  size : ℕ
deriving DecidableEq, Repr

/-- The set of grid cells covered by a blob's square. -/
def Blob.cells (b : Blob) : Finset Cell :=
  squareCells b.x b.y b.size

/-- An RGB color sample, as read from `imageData` (integer channels). -/
structure Color where
  r : ℤ
  g : ℤ
  b : ℤ
deriving DecidableEq, Repr

/-- Squared Euclidean RGB distance; `colorDistance` in the source returns its
square root, so every comparison against a threshold is embedded squared. -/
def distSq (c1 c2 : Color) : ℤ :=
  (c1.r - c2.r) * (c1.r - c2.r) + (c1.g - c2.g) * (c1.g - c2.g) +
    (c1.b - c2.b) * (c1.b - c2.b)

/-- `colorDistance c1 c2 ≤ t`, embedded exactly: the source compares
`Math.sqrt(distSq)` with `t`, which for a nonnegative radicand is equivalent
to `0 ≤ t ∧ distSq ≤ t²`. -/
def distLE (c1 c2 : Color) (t : ℚ) : Bool :=
  decide (0 ≤ t ∧ (distSq c1 c2 : ℚ) ≤ t * t)

/-- `similarityThreshold = (similaritySensitivity / 100) * 160` from
`drawGlassDots`. -/
def similarityThreshold (sens : ℚ) : ℚ :=
  sens / 100 * 160

/-- One expansion check of the square-growing loop: from current size `s`
anchored at `(x, y)`, the newly exposed right column `(x+s, y+i)` for
`i < s+1` and bottom row `(x+i, y+s)` for `i < s` must all satisfy `ok`
(unvisited, and color-similar when similarity is checked). -/
def expandOk (ok : ℕ → ℕ → Bool) (x y s : ℕ) : Bool :=
  ((List.range (s + 1)).all fun i => ok (x + s) (y + i)) &&
  ((List.range s).all fun i => ok (x + i) (y + s))

/-- The `while (true)` growth loop shared by `findMaxBlobSize` and the
corner-filling pass: starting from `cur`, keep growing the square while the
next size stays within `limX`/`limY` and the newly exposed cells pass `ok`.
The loop guard forces `cur < limX` at every iteration, so it runs at most
`limX - cur` times; `fuel` is structural-recursion fuel that callers set to
`limX`, which never cuts the loop short (`growLoop_fuel_congr`). -/
def growLoop (ok : ℕ → ℕ → Bool) (limX limY x y : ℕ) : ℕ → ℕ → ℕ
  | 0, cur => cur
  | fuel + 1, cur =>
    if x + (cur + 1) ≤ limX ∧ y + (cur + 1) ≤ limY ∧ expandOk ok x y cur = true
    then growLoop ok limX limY x y fuel (cur + 1)
    else cur

/-- `findMaxBlobSize` from `drawGlassDots`: returns 1 immediately when
`similaritySensitivity == 0`, otherwise grows a square from the anchor,
requiring each newly exposed cell to be unvisited and (when `checkSim`)
within `similarityThreshold` color distance of the anchor's color. -/
def findMaxBlobSize (color : Cell → Color) (vis : Finset Cell) (sens : ℚ)
    (startX startY limX limY : ℕ) (checkSim : Bool) : ℕ :=
  if sens = 0 then 1
  else
    let anchorColor := color (startX, startY)
    growLoop
      (fun cx cy =>
        decide ((cx, cy) ∉ vis) &&
        (!checkSim || distLE anchorColor (color (cx, cy)) (similarityThreshold sens)))
      limX limY startX startY limX 1

/-- One step of the row-major anchor scan: skip a visited cell; otherwise
emit the blob picked at this anchor and mark its square as visited. -/
def tileStep (pick : Finset Cell → Cell → ℕ) (st : List Blob × Finset Cell)
    (pos : Cell) : List Blob × Finset Cell :=
  if pos ∈ st.2 then st
  else
    let s := pick st.2 pos
    (st.1 ++ [⟨pos.1, pos.2, s⟩], st.2 ∪ squareCells pos.1 pos.2 s)

/-- The row-major anchor scan over a `W × H` grid, starting from an initial
visited set, where `pick` computes the square size grown from an anchor
given the current visited set. Instantiated once for the global blob scan
and once for the per-blob corner-filling pass. -/
def tileScan (W H : ℕ) (pick : Finset Cell → Cell → ℕ) (init : Finset Cell) :
    List Blob × Finset Cell :=
  (rowMajor W H).foldl (tileStep pick) ([], init)

/-- The anchor-size function of the global blob scan of `drawGlassDots`:
`findMaxBlobSize(x, y, gridWidth, gridHeight, true)`. -/
def pickGlass (W H : ℕ) (color : Cell → Color) (sens : ℚ)
    (vis : Finset Cell) (pos : Cell) : ℕ :=
  findMaxBlobSize color vis sens pos.1 pos.2 W H true

/-- The anchor-size function of the corner-filling pass inside a blob of
size `s`: the same growth loop without any color-similarity check. -/
def pickLocal (s : ℕ) (vis : Finset Cell) (pos : Cell) : ℕ :=
  growLoop (fun cx cy => decide ((cx, cy) ∉ vis)) s s pos.1 pos.2 s 1

/-- `recalibratedPixelGap / 100` of the source: `pixelGap * 16 / 100 / 100`. -/
def gapFraction (pixelGap : ℚ) : ℚ :=
  pixelGap * 16 / 100 / 100

/-- The gap-adjusted visual radius `(size - effectiveGapPercent) / 2` of a
blob of size `s`. -/
def visualRadius (s : ℕ) (pixelGap : ℚ) : ℚ :=
  ((s : ℚ) - gapFraction pixelGap) / 2

/-- The strict circle–rectangle intersection test of the gap-filling pass:
the grid cell `[lx, lx+1] × [ly, ly+1]` intersects the visual circle of a
blob of size `s` when the closest point of the cell to the circle's center
is at squared distance `< visualRadius² - 0.001`. -/
def cellIntersectsCircle (s : ℕ) (pixelGap : ℚ) (lx ly : ℕ) : Bool :=
  let centerX : ℚ := (s : ℚ) / 2
  let centerY : ℚ := (s : ℚ) / 2
  let closestX := max (lx : ℚ) (min centerX ((lx : ℚ) + 1))
  let closestY := max (ly : ℚ) (min centerY ((ly : ℚ) + 1))
  let dx := centerX - closestX
  let dy := centerY - closestY
  decide (dx * dx + dy * dy <
    visualRadius s pixelGap * visualRadius s pixelGap - 1 / 1000)

/-- The initial `localVisited` marking of the gap-filling pass: all sub-cells
of the blob's square that intersect its visual circle. -/
def circleCells (s : ℕ) (pixelGap : ℚ) : Finset Cell :=
  (gridCells s s).filter (fun c => cellIntersectsCircle s pixelGap c.1 c.2)

/-- The corner-filler blobs of one blob: for a blob of size `> 1`, run the
local row-major square-growing scan over the cells not covered by the visual
circle, and translate the resulting local blobs by the parent's corner. -/
def gapFillers (pixelGap : ℚ) (b : Blob) : List Blob :=
  if 1 < b.size then
    ((tileScan b.size b.size (pickLocal b.size) (circleCells b.size pixelGap)).1).map
      (fun f => ⟨b.x + f.x, b.y + f.y, f.size⟩)
  else []

/-- The blobs emitted by the row-major anchor scan of `drawGlassDots`
(excluding corner fillers), in emission order. -/
def glassMainBlobs (W H : ℕ) (color : Cell → Color) (sens : ℚ) : List Blob :=
  (tileScan W H (pickGlass W H color sens) ∅).1

/-- The complete blob list of one `drawGlassDots` pass, in emission order:
each main-scan blob immediately followed by its corner fillers. The
gap-filling pass never touches the global visited set, so the main scan is
independent of it. -/
def glassBlobs (W H : ℕ) (color : Cell → Color) (sens pixelGap : ℚ) : List Blob :=
  (glassMainBlobs W H color sens).flatMap (fun b => b :: gapFillers pixelGap b)

/-- Sum of `size²` over a blob list (the number of cells covered, counted
with multiplicity). -/
def coverageSum (bs : List Blob) : ℕ :=
  (bs.map (fun b => b.size ^ 2)).sum

/-- Average blob size of a nonempty blob list. -/
def avgBlobSize (bs : List Blob) : ℚ :=
  ((bs.map Blob.size).sum : ℚ) / bs.length

/-- `sortedAllBlobs` of `drawGlassDots`: the blob list sorted by size
descending (`(a, b) => b.size - a.size`, a stable sort). -/
def sortedAllBlobs (bs : List Blob) : List Blob :=
  bs.mergeSort (fun a b => b.size ≤ a.size)

/-- `markerCount = min(Math.ceil(blobs.length * 0.04), 5)`. -/
def markerCount (bs : List Blob) : ℕ :=
  min ⌈(bs.length : ℚ) * 0.04⌉₊ 5

/-- `topBlobsForMarkers`: the first `markerCount` blobs of the
size-descending sort, taken over all produced blobs before any
size-threshold filtering. -/
def markerBlobs (bs : List Blob) : List Blob :=
  (sortedAllBlobs bs).take (markerCount bs)

/-- `maxBlobSize = blobs.reduce((max, b) => Math.max(max, b.size), 1)`. -/
def maxBlobSize (bs : List Blob) : ℕ :=
  bs.foldl (fun m b => max m b.size) 1

/-- `sizeThreshold = (lowerLimit / 100) * maxBlobSize` and
`filteredBlobs = blobs.filter(b => b.size >= sizeThreshold)`. -/
def filteredBlobs (lowerLimit : ℚ) (bs : List Blob) : List Blob :=
  bs.filter (fun b => lowerLimit / 100 * (maxBlobSize bs : ℚ) ≤ (b.size : ℚ))

/-! ### Luminance / color transform (`ValueAliasing.tsx`, `Pfp.tsx`) -/

/-- `calculatedExposure = (exposure - 50) * 2`. -/
def calculatedExposure (exposure : ℚ) : ℚ :=
  (exposure - 50) * 2

/-- `calculatedContrast = contrast <= 50 ? contrast / 50
: 1 + ((contrast - 50) / 50) * 2`. -/
def calculatedContrast (contrast : ℚ) : ℚ :=
  if contrast ≤ 50 then contrast / 50 else 1 + (contrast - 50) / 50 * 2

/-- The shared exposure/contrast luminance remap
`Math.round(Math.max(0, Math.min(255, ((luma/255 - 0.5)*contrast + 0.5)*255
+ exposure)))` applied to an already-adjusted exposure/contrast pair. -/
def lumaClampRound (adjusted : ℚ) : ℤ :=
  round (max 0 (min 255 adjusted))

/-- `finalGray` of `drawValueAliasingMatrix` (monochrome branch): weighted
grayscale of the sampled cell, then the exposure/contrast remap, clamped to
`[0, 255]` and rounded. -/
def vaFinalGray (exposure contrast : ℚ) (r g b : ℚ) : ℤ :=
  let originalGray := 0.299 * r + 0.587 * g + 0.114 * b
  lumaClampRound
    (((originalGray / 255 - 0.5) * calculatedContrast contrast + 0.5) * 255 +
      calculatedExposure exposure)

/-- `finalGray` of `gridColors` in `Pfp.tsx` for a numeric stored luminance
`val` in the image-loaded path: the same remap formula. -/
def pfpFinalGray (exposure contrast : ℚ) (val : ℚ) : ℤ :=
  lumaClampRound
    (((val / 255 - 0.5) * calculatedContrast contrast + 0.5) * 255 +
      calculatedExposure exposure)

/-! ### CMYK round-trip simulation (`ValueAliasing.tsx`) -/

/-- `rgbToCmyk`: `k = 1 - max(r, g, b)/255`; when `k == 1` (pure black)
returns `(0, 0, 0, 1)`, otherwise `c = (1 - r/255 - k)/(1 - k)` and
symmetrically for `m`, `y`. -/
def rgbToCmyk (r g b : ℚ) : ℚ × ℚ × ℚ × ℚ :=
  let r' := r / 255
  let g' := g / 255
  let b' := b / 255
  let k := 1 - max r' (max g' b')
  if k = 1 then (0, 0, 0, 1)
  else ((1 - r' - k) / (1 - k), (1 - g' - k) / (1 - k), (1 - b' - k) / (1 - k), k)

/-- `cmykToRgb`: `r = round(255 * (1-c) * (1-k))` and symmetrically. -/
def cmykToRgb (c m y k : ℚ) : ℤ × ℤ × ℤ :=
  (round (255 * (1 - c) * (1 - k)),
   round (255 * (1 - m) * (1 - k)),
   round (255 * (1 - y) * (1 - k)))

/-- `simulateCmyk = cmykToRgb ∘ rgbToCmyk`. -/
def simulateCmyk (r g b : ℚ) : ℤ × ℤ × ℤ :=
  let cmyk := rgbToCmyk r g b
  cmykToRgb cmyk.1 cmyk.2.1 cmyk.2.2.1 cmyk.2.2.2

/-! ### Circular-crop coverage mask (`Pfp.tsx`) -/

/-- `diameter = Math.floor((0.32 * resolution + 9) / 2) * 2 + 1`. -/
def pfpDiameter (resolution : ℚ) : ℤ :=
  2 * ⌊(0.32 * resolution + 9) / 2⌋ + 1

/-- The mask radius for a given diameter: `radius = diameter / 2`. -/
def maskRadius (d : ℕ) : ℚ := (d : ℚ) / 2

/-- The mask center coordinate: `center = radius - 0.5`. -/
def maskCenter (d : ℕ) : ℚ := maskRadius d - 1 / 2

/-- Whether sub-sample `(subX, subY)` of cell `(x, y)` lies inside the
circle: the sub-sample sits at
`(x - 0.5 + (subX + 0.5)/5, y - 0.5 + (subY + 0.5)/5)` and counts when its
distance from the center is `≤ radius` (embedded squared). -/
def subSampleHit (d x y subX subY : ℕ) : Bool :=
  let cx := ((x : ℚ) - 1 / 2 + ((subX : ℚ) + 1 / 2) / 5) - maskCenter d
  let cy := ((y : ℚ) - 1 / 2 + ((subY : ℚ) + 1 / 2) / 5) - maskCenter d
  decide (cx * cx + cy * cy ≤ maskRadius d * maskRadius d)

/-- `pointsInside`: the number of the 25 sub-samples of cell `(x, y)` lying
inside the circle. -/
def subSamplesInside (d x y : ℕ) : ℕ :=
  ((List.range 5).flatMap (fun subY => (List.range 5).map (fun subX =>
    if subSampleHit d x y subX subY then 1 else 0))).sum

/-- One cell of `matrixMask` in the anti-aliased branch: cells whose center
is within `radius` get coverage 1 via the fully-inside shortcut; cells
within `radius + 1.5` get supersampled coverage `pointsInside / 25` (left 0
when no sub-sample is inside); all other cells get 0. Distance comparisons
are embedded squared (`radius ≥ 0` and `radius + 1.5 > 0` for any `d`). -/
def maskCell (d x y : ℕ) : ℚ :=
  let dx := (x : ℚ) - maskCenter d
  let dy := (y : ℚ) - maskCenter d
  if dx * dx + dy * dy ≤ maskRadius d * maskRadius d then 1
  else if dx * dx + dy * dy < (maskRadius d + 3 / 2) * (maskRadius d + 3 / 2) then
    (if 0 < subSamplesInside d x y then (subSamplesInside d x y : ℚ) / 25 else 0)
  else 0

/-- Modelled from the spec: the coverage computation with the fully-inside
shortcut removed, i.e. full 5×5 supersampling for every cell within
`radius + 1.5` of the center ("coverage = fraction of sub-samples whose
distance from center ≤ radius"). Used only to compare the shortcut against
full supersampling. -/
def maskCellFull (d x y : ℕ) : ℚ :=
  let dx := (x : ℚ) - maskCenter d
  let dy := (y : ℚ) - maskCenter d
  if dx * dx + dy * dy < (maskRadius d + 3 / 2) * (maskRadius d + 3 / 2) then
    (subSamplesInside d x y : ℚ) / 25
  else 0

/-! ### Photo-widget sampling and drawing (`PhotoWidget.tsx`) -/

/-- A sampled RGBA value from `imageData`. -/
structure RGBA where
  r : ℤ
  g : ℤ
  b : ℤ
  a : ℤ
deriving DecidableEq, Repr

/-- One cell of the photo-widget color matrix: `null` when the sampled alpha
is at or below the transparency threshold (`imageData[i + 3] <= 10`),
otherwise the clamped, rounded color with its alpha. -/
def photoWidgetCell (p : RGBA) : Option RGBA :=
  if p.a ≤ 10 then none
  else some ⟨round (max 0 (min 255 (p.r : ℚ))),
             round (max 0 (min 255 (p.g : ℚ))),
             round (max 0 (min 255 (p.b : ℚ))),
             p.a⟩

/-- `fullMatrix` of `usePhotoWidgetPanel` (rows × cols) built from the
sampled pixel data. -/
def photoWidgetMatrix (W H : ℕ) (pix : ℕ → ℕ → RGBA) :
    List (List (Option RGBA)) :=
  (List.range H).map (fun y => (List.range W).map (fun x => photoWidgetCell (pix x y)))

/-- One dot painted by `drawPhotoWidgetMatrix`: the cell coordinate and the
fill color used. -/
structure DrawnDot where
  x : ℕ
  y : ℕ
  color : RGBA
deriving DecidableEq, Repr

/-- The dots painted by the cell loop of `drawPhotoWidgetMatrix`: a cell
contributes a dot only when its matrix entry is non-null and the gap- and
coverage-adjusted shape is larger than 0.1 px (circle radius for the
circular mode, rectangle sides otherwise). Anti-aliased coverage scales the
shape by `sqrt(a / 255)`, embedded squared in the size tests. -/
def drawPhotoWidgetDots (matrix : List (List (Option RGBA)))
    (cellWidth cellHeight : ℚ) (pixelGap : ℚ)
    (isCircular isAntiAliased : Bool) : List DrawnDot :=
  let gapRatio := 0.28 * (pixelGap * 0.84 * 5) / 100 * 0.2765
  let pixelWidth := cellWidth * (1 - gapRatio)
  let pixelHeight := cellHeight * (1 - gapRatio)
  (List.range matrix.length).flatMap (fun y =>
    (List.range ((matrix.headD []).length)).flatMap (fun x =>
      match (matrix.getD y []).getD x none with
      | none => []
      | some p =>
        -- with anti-aliasing the final size is `pixel* · sqrt(a/255)`;
        -- `min w h / 2 > 0.1` is embedded squared against the coverage.
        let coverage : ℚ := (p.a : ℚ) / 255
        let keep : Bool :=
          if isAntiAliased then
            if isCircular then
              decide ((1 / 10 : ℚ) * (1 / 10) * 4 <
                  (min pixelWidth pixelHeight) * (min pixelWidth pixelHeight) * coverage
                ∧ 0 < min pixelWidth pixelHeight)
            else
              decide ((1 / 10 : ℚ) * (1 / 10) < pixelWidth * pixelWidth * coverage
                ∧ 0 < pixelWidth
                ∧ (1 / 10 : ℚ) * (1 / 10) < pixelHeight * pixelHeight * coverage
                ∧ 0 < pixelHeight)
          else
            if isCircular then decide ((1 / 10 : ℚ) < min pixelWidth pixelHeight / 2)
            else decide ((1 / 10 : ℚ) < pixelWidth ∧ (1 / 10 : ℚ) < pixelHeight)
        if keep then [⟨x, y, p⟩] else []))

/-- The union of the squares of a blob list. -/
def unionSquares (bs : List Blob) : Finset Cell :=
  bs.foldr (fun b acc => b.cells ∪ acc) ∅

/-- The contract of an anchor-size function: from an unvisited in-grid
anchor it returns a square of size at least 1 that stays inside the grid
and covers only unvisited cells. Both `findMaxBlobSize` (global scan) and
the corner-filler growth (local scan) satisfy it. -/
def GoodPick (W H : ℕ) (pick : Finset Cell → Cell → ℕ) : Prop :=
  ∀ vis pos, pos ∉ vis → pos.1 < W → pos.2 < H →
    1 ≤ pick vis pos ∧ pos.1 + pick vis pos ≤ W ∧ pos.2 + pick vis pos ≤ H ∧
    ∀ c ∈ squareCells pos.1 pos.2 (pick vis pos), c ∉ vis

/-- Invariant of the scan state: emitted blobs are at least size 1 and
inside the grid, pairwise disjoint, disjoint from the initial visited set,
and the visited set is exactly the initial set plus the emitted squares. -/
structure TileInv (W H : ℕ) (init : Finset Cell) (st : List Blob × Finset Cell) :
    Prop where
  bounds : ∀ b ∈ st.1, 1 ≤ b.size ∧ b.x + b.size ≤ W ∧ b.y + b.size ≤ H
  disj : st.1.Pairwise (fun a b => Disjoint a.cells b.cells)
  disjInit : ∀ b ∈ st.1, Disjoint b.cells init
  visEq : st.2 = init ∪ unionSquares st.1

/-- A uniform solid-red color grid. -/
def solidRed : Cell → Color := fun _ => ⟨255, 0, 0⟩

/-- A 4×4 grid of four 2×2 single-color quadrants (black, red, green, blue)
with the bottom-right corner cell a slightly different blue. -/
def quadColors : Cell → Color := fun c =>
  if c.1 ≤ 1 ∧ c.2 ≤ 1 then ⟨0, 0, 0⟩
  else if 2 ≤ c.1 ∧ c.2 ≤ 1 then ⟨100, 0, 0⟩
  else if c.1 ≤ 1 ∧ 2 ≤ c.2 then ⟨0, 100, 0⟩
  else if c.1 = 3 ∧ c.2 = 3 then ⟨0, 0, 120⟩
  else ⟨0, 0, 100⟩

/-! ### Properties of the growth loop -/

theorem expandOk_iff {ok : ℕ → ℕ → Bool} {x y s : ℕ} :
    expandOk ok x y s = true ↔
      (∀ i, i < s + 1 → ok (x + s) (y + i) = true) ∧
      (∀ i, i < s → ok (x + i) (y + s) = true) := by
  simp [expandOk, List.all_eq_true, List.mem_range]

theorem growLoop_le (ok : ℕ → ℕ → Bool) (limX limY x y : ℕ) :
    ∀ fuel cur, cur ≤ growLoop ok limX limY x y fuel cur := by
  intro fuel
  induction fuel with
  | zero => intro cur; simp only [growLoop]; exact le_refl cur
  | succ fuel ih =>
    intro cur
    simp only [growLoop]
    by_cases h : x + (cur + 1) ≤ limX ∧ y + (cur + 1) ≤ limY ∧
        expandOk ok x y cur = true
    · rw [if_pos h]; exact le_trans (Nat.le_succ cur) (ih (cur + 1))
    · rw [if_neg h]

/-- The fuel never cuts the growth loop short: any two fuel values at least
`limX - cur` give the same result (callers pass `fuel = limX ≥ limX - cur`). -/
theorem growLoop_fuel_congr (ok : ℕ → ℕ → Bool) (limX limY x y : ℕ) :
    ∀ fuel fuel' cur, limX ≤ x + cur + fuel → limX ≤ x + cur + fuel' →
      growLoop ok limX limY x y fuel cur = growLoop ok limX limY x y fuel' cur := by
  intro fuel
  induction fuel with
  | zero =>
    intro fuel' cur h h'
    cases fuel' with
    | zero => rfl
    | succ fuel' =>
      simp only [growLoop]
      have : ¬(x + (cur + 1) ≤ limX ∧ y + (cur + 1) ≤ limY ∧
          expandOk ok x y cur = true) := by omega
      rw [if_neg this]
  | succ fuel ih =>
    intro fuel' cur h h'
    cases fuel' with
    | zero =>
      simp only [growLoop]
      have : ¬(x + (cur + 1) ≤ limX ∧ y + (cur + 1) ≤ limY ∧
          expandOk ok x y cur = true) := by omega
      rw [if_neg this]
    | succ fuel' =>
      simp only [growLoop]
      by_cases hc : x + (cur + 1) ≤ limX ∧ y + (cur + 1) ≤ limY ∧
          expandOk ok x y cur = true
      · rw [if_pos hc, if_pos hc]
        exact ih fuel' (cur + 1) (by omega) (by omega)
      · rw [if_neg hc, if_neg hc]

theorem growLoop_bounds (ok : ℕ → ℕ → Bool) (limX limY x y : ℕ) :
    ∀ fuel cur, x + cur ≤ limX → y + cur ≤ limY →
      x + growLoop ok limX limY x y fuel cur ≤ limX ∧
        y + growLoop ok limX limY x y fuel cur ≤ limY := by
  intro fuel
  induction fuel with
  | zero => intro cur hx hy; simp only [growLoop]; exact ⟨hx, hy⟩
  | succ fuel ih =>
    intro cur hx hy
    simp only [growLoop]
    by_cases h : x + (cur + 1) ≤ limX ∧ y + (cur + 1) ≤ limY ∧
        expandOk ok x y cur = true
    · rw [if_pos h]; exact ih (cur + 1) h.1 h.2.1
    · rw [if_neg h]; exact ⟨hx, hy⟩

theorem growLoop_okCells (ok : ℕ → ℕ → Bool) (limX limY x y : ℕ) :
    ∀ fuel cur,
      (∀ i j, i < cur → j < cur → ¬(i = 0 ∧ j = 0) → ok (x + i) (y + j) = true) →
      ∀ i j, i < growLoop ok limX limY x y fuel cur →
        j < growLoop ok limX limY x y fuel cur → ¬(i = 0 ∧ j = 0) →
        ok (x + i) (y + j) = true := by
  intro fuel
  induction fuel with
  | zero => intro cur hcur; simp only [growLoop]; exact hcur
  | succ fuel ih =>
    intro cur hcur
    simp only [growLoop]
    by_cases h : x + (cur + 1) ≤ limX ∧ y + (cur + 1) ≤ limY ∧
        expandOk ok x y cur = true
    · rw [if_pos h]
      refine ih (cur + 1) ?_
      intro i j hi hj hne
      rcases expandOk_iff.mp h.2.2 with ⟨hcol, hrow⟩
      by_cases hic : i = cur
      · subst hic; exact hcol j hj
      · by_cases hjc : j = cur
        · subst hjc; exact hrow i (by omega)
        · exact hcur i j (by omega) (by omega) hne
    · rw [if_neg h]
      exact hcur

theorem expandOk_mono {ok ok' : ℕ → ℕ → Bool}
    (h : ∀ a b, ok a b = true → ok' a b = true) {x y s : ℕ}
    (he : expandOk ok x y s = true) : expandOk ok' x y s = true := by
  rcases expandOk_iff.mp he with ⟨hcol, hrow⟩
  exact expandOk_iff.mpr ⟨fun i hi => h _ _ (hcol i hi), fun i hi => h _ _ (hrow i hi)⟩

theorem growLoop_mono {ok ok' : ℕ → ℕ → Bool}
    (h : ∀ a b, ok a b = true → ok' a b = true) (limX limY x y : ℕ) :
    ∀ fuel cur, growLoop ok limX limY x y fuel cur ≤ growLoop ok' limX limY x y fuel cur := by
  intro fuel
  induction fuel with
  | zero => intro cur; simp only [growLoop]; exact le_refl cur
  | succ fuel ih =>
    intro cur
    simp only [growLoop]
    by_cases hc : x + (cur + 1) ≤ limX ∧ y + (cur + 1) ≤ limY ∧
        expandOk ok x y cur = true
    · rw [if_pos hc, if_pos ⟨hc.1, hc.2.1, expandOk_mono h hc.2.2⟩]
      exact ih (cur + 1)
    · rw [if_neg hc]
      by_cases hc' : x + (cur + 1) ≤ limX ∧ y + (cur + 1) ≤ limY ∧
          expandOk ok' x y cur = true
      · rw [if_pos hc']
        exact le_trans (Nat.le_succ cur) (growLoop_le ok' limX limY x y fuel (cur + 1))
      · rw [if_neg hc']

/-! ### Squares, grids and unions of blob squares -/

theorem mem_squareCells {c : Cell} {x y s : ℕ} :
    c ∈ squareCells x y s ↔ x ≤ c.1 ∧ c.1 < x + s ∧ y ≤ c.2 ∧ c.2 < y + s := by
  simp [squareCells, Finset.mem_product, Finset.mem_Ico, and_assoc]

theorem mem_gridCells {c : Cell} {W H : ℕ} :
    c ∈ gridCells W H ↔ c.1 < W ∧ c.2 < H := by
  simp [gridCells, Finset.mem_product]

theorem card_squareCells (x y s : ℕ) : (squareCells x y s).card = s ^ 2 := by
  simp [squareCells, Nat.card_Ico, sq]

theorem card_gridCells (W H : ℕ) : (gridCells W H).card = W * H := by
  simp [gridCells]

theorem squareCells_subset_grid {x y s W H : ℕ} (hx : x + s ≤ W) (hy : y + s ≤ H) :
    squareCells x y s ⊆ gridCells W H := by
  intro c hc
  rw [mem_squareCells] at hc
  rw [mem_gridCells]
  omega

theorem mem_rowMajor {p : Cell} {W H : ℕ} :
    p ∈ rowMajor W H ↔ p.1 < W ∧ p.2 < H := by
  rcases p with ⟨x, y⟩
  simp [rowMajor, List.mem_flatMap, List.mem_map, List.mem_range]
  constructor
  · rintro ⟨b, hb, a, ha, h1, h2⟩
    omega
  · rintro ⟨hx, hy⟩
    exact ⟨y, hy, x, hx, rfl, rfl⟩

theorem mem_unionSquares {c : Cell} {bs : List Blob} :
    c ∈ unionSquares bs ↔ ∃ b ∈ bs, c ∈ b.cells := by
  induction bs with
  | nil => simp [unionSquares]
  | cons b t ih => simp [unionSquares, List.foldr] at ih ⊢; rw [ih]

theorem unionSquares_append (bs : List Blob) (b : Blob) :
    unionSquares (bs ++ [b]) = unionSquares bs ∪ b.cells := by
  ext c
  simp [mem_unionSquares, Finset.mem_union, or_comm]

/-! ### The row-major tiling scan -/

theorem tileStep_inv {W H : ℕ} {pick : Finset Cell → Cell → ℕ}
    (hp : GoodPick W H pick) {init : Finset Cell} {st : List Blob × Finset Cell}
    {pos : Cell} (hx : pos.1 < W) (hy : pos.2 < H)
    (hinv : TileInv W H init st) : TileInv W H init (tileStep pick st pos) := by
  rw [tileStep]
  by_cases hv : pos ∈ st.2
  · rw [if_pos hv]; exact hinv
  · rw [if_neg hv]
    obtain ⟨h1, h2, h3, h4⟩ := hp st.2 pos hv hx hy
    have hnewfree : ∀ c ∈ (Blob.mk pos.1 pos.2 (pick st.2 pos)).cells, c ∉ st.2 := h4
    constructor
    · intro b hb
      rcases List.mem_append.mp hb with hb | hb
      · exact hinv.bounds b hb
      · rcases List.mem_singleton.mp hb with rfl
        exact ⟨h1, h2, h3⟩
    · rw [List.pairwise_append]
      refine ⟨hinv.disj, List.pairwise_singleton _ _, ?_⟩
      intro a ha b hb
      rcases List.mem_singleton.mp hb with rfl
      rw [Finset.disjoint_right]
      intro c hc
      have : c ∉ st.2 := hnewfree c hc
      rw [hinv.visEq] at this
      intro hca
      exact this (Finset.mem_union_right _ (mem_unionSquares.mpr ⟨a, ha, hca⟩))
    · intro b hb
      rcases List.mem_append.mp hb with hb | hb
      · exact hinv.disjInit b hb
      · rcases List.mem_singleton.mp hb with rfl
        rw [Finset.disjoint_left]
        intro c hc hcinit
        have : c ∉ st.2 := hnewfree c hc
        rw [hinv.visEq] at this
        exact this (Finset.mem_union_left _ hcinit)
    · show st.2 ∪ squareCells pos.1 pos.2 (pick st.2 pos) =
        init ∪ unionSquares (st.1 ++ [⟨pos.1, pos.2, pick st.2 pos⟩])
      rw [unionSquares_append, hinv.visEq, Finset.union_assoc]
      rfl

theorem tileStep_vis_mono {pick : Finset Cell → Cell → ℕ}
    (st : List Blob × Finset Cell) (pos : Cell) :
    st.2 ⊆ (tileStep pick st pos).2 := by
  rw [tileStep]
  by_cases hv : pos ∈ st.2
  · rw [if_pos hv]
  · rw [if_neg hv]; exact Finset.subset_union_left

theorem foldl_tileStep_vis_mono {pick : Finset Cell → Cell → ℕ}
    (L : List Cell) (st : List Blob × Finset Cell) :
    st.2 ⊆ (L.foldl (tileStep pick) st).2 := by
  induction L generalizing st with
  | nil => exact Finset.Subset.refl _
  | cons p t ih => exact (tileStep_vis_mono st p).trans (ih _)

theorem foldl_tileStep_inv {W H : ℕ} {pick : Finset Cell → Cell → ℕ}
    (hp : GoodPick W H pick) {init : Finset Cell} (L : List Cell)
    (hL : ∀ p ∈ L, p.1 < W ∧ p.2 < H) {st : List Blob × Finset Cell}
    (hinv : TileInv W H init st) :
    TileInv W H init (L.foldl (tileStep pick) st) := by
  induction L generalizing st with
  | nil => exact hinv
  | cons p t ih =>
    have hp1 := hL p (List.mem_cons_self p t)
    exact ih (fun q hq => hL q (List.mem_cons_of_mem p hq))
      (tileStep_inv hp hp1.1 hp1.2 hinv)

theorem foldl_tileStep_covers {W H : ℕ} {pick : Finset Cell → Cell → ℕ}
    (hp : GoodPick W H pick) (L : List Cell)
    (hL : ∀ p ∈ L, p.1 < W ∧ p.2 < H) (st : List Blob × Finset Cell) :
    ∀ p ∈ L, p ∈ (L.foldl (tileStep pick) st).2 := by
  induction L generalizing st with
  | nil => intro p hp'; simp at hp'
  | cons q t ih =>
    intro p hpmem
    rcases List.mem_cons.mp hpmem with rfl | hpt
    · refine foldl_tileStep_vis_mono t (tileStep pick st p) ?_
      rw [tileStep]
      by_cases hv : p ∈ st.2
      · rw [if_pos hv]; exact hv
      · rw [if_neg hv]
        have h1 := (hp st.2 p hv (hL p (List.mem_cons_self p t)).1
          (hL p (List.mem_cons_self p t)).2).1
        refine Finset.mem_union_right _ ?_
        rw [mem_squareCells]
        omega
    · exact ih (fun r hr => hL r (List.mem_cons_of_mem q hr)) _ p hpt

theorem tileScan_inv {W H : ℕ} {pick : Finset Cell → Cell → ℕ}
    (hp : GoodPick W H pick) (init : Finset Cell) :
    TileInv W H init (tileScan W H pick init) := by
  refine foldl_tileStep_inv hp _ (fun p hp' => mem_rowMajor.mp hp') ?_
  exact ⟨by simp, by simp, by simp, by simp [unionSquares]⟩

theorem tileScan_covers {W H : ℕ} {pick : Finset Cell → Cell → ℕ}
    (hp : GoodPick W H pick) (init : Finset Cell) :
    ∀ p ∈ gridCells W H, p ∈ (tileScan W H pick init).2 := by
  intro p hpg
  exact foldl_tileStep_covers hp _ (fun q hq => mem_rowMajor.mp hq) _ p
    (mem_rowMajor.mpr (mem_gridCells.mp hpg))

theorem disjoint_unionSquares {b : Blob} {bs : List Blob}
    (h : ∀ a ∈ bs, Disjoint b.cells a.cells) :
    Disjoint b.cells (unionSquares bs) := by
  rw [Finset.disjoint_right]
  intro c hc
  rcases mem_unionSquares.mp hc with ⟨a, ha, hca⟩
  exact fun hcb => (Finset.disjoint_left.mp (h a ha)) hcb hca

theorem card_unionSquares {bs : List Blob}
    (h : bs.Pairwise (fun a b => Disjoint a.cells b.cells)) :
    (unionSquares bs).card = coverageSum bs := by
  induction bs with
  | nil => simp [unionSquares, coverageSum]
  | cons b t ih =>
    rcases List.pairwise_cons.mp h with ⟨hb, ht⟩
    have hd : Disjoint b.cells (unionSquares t) := disjoint_unionSquares hb
    have hcons : unionSquares (b :: t) = b.cells ∪ unionSquares t := rfl
    rw [hcons, Finset.card_union_of_disjoint hd, ih ht]
    show b.cells.card + coverageSum t = coverageSum (b :: t)
    rw [Blob.cells, card_squareCells]
    simp [coverageSum]

/-! ### The two anchor-size functions are good picks -/

theorem goodPick_pickGlass (W H : ℕ) (color : Cell → Color) (sens : ℚ) :
    GoodPick W H (pickGlass W H color sens) := by
  intro vis pos hvis hx hy
  by_cases hs : sens = 0
  · have h1 : pickGlass W H color sens vis pos = 1 := by
      rw [pickGlass, findMaxBlobSize, if_pos hs]
    rw [h1]
    refine ⟨le_refl 1, by omega, by omega, ?_⟩
    intro c hc
    rw [mem_squareCells] at hc
    have hcp : c = pos := Prod.ext (by omega) (by omega)
    rw [hcp]
    exact hvis
  · have h1 : pickGlass W H color sens vis pos =
        growLoop
          (fun cx cy => decide ((cx, cy) ∉ vis) &&
            (!true || distLE (color (pos.1, pos.2)) (color (cx, cy))
              (similarityThreshold sens)))
          W H pos.1 pos.2 W 1 := by
      rw [pickGlass, findMaxBlobSize, if_neg hs]
    rw [h1]
    have hbd := growLoop_bounds
      (fun cx cy => decide ((cx, cy) ∉ vis) &&
        (!true || distLE (color (pos.1, pos.2)) (color (cx, cy))
          (similarityThreshold sens)))
      W H pos.1 pos.2 W 1 (by omega) (by omega)
    refine ⟨growLoop_le _ W H pos.1 pos.2 W 1, hbd.1, hbd.2, ?_⟩
    intro c hc
    rw [mem_squareCells] at hc
    by_cases hcp : c = pos
    · rw [hcp]; exact hvis
    · have hcells := growLoop_okCells
        (fun cx cy => decide ((cx, cy) ∉ vis) &&
          (!true || distLE (color (pos.1, pos.2)) (color (cx, cy))
            (similarityThreshold sens)))
        W H pos.1 pos.2 W 1
        (by intro i j hi hj hne; omega)
        (c.1 - pos.1) (c.2 - pos.2) (by omega) (by omega)
        (by intro hz; exact hcp (Prod.ext (by omega) (by omega)))
      simp only [Bool.and_eq_true, decide_eq_true_eq] at hcells
      have hxy : (pos.1 + (c.1 - pos.1), pos.2 + (c.2 - pos.2)) = c :=
        Prod.ext (by omega) (by omega)
      rw [hxy] at hcells
      exact hcells.1

theorem goodPick_pickLocal (s : ℕ) : GoodPick s s (pickLocal s) := by
  intro vis pos hvis hx hy
  rw [pickLocal]
  have hbd := growLoop_bounds (fun cx cy => decide ((cx, cy) ∉ vis))
    s s pos.1 pos.2 s 1 (by omega) (by omega)
  refine ⟨growLoop_le _ s s pos.1 pos.2 s 1, hbd.1, hbd.2, ?_⟩
  intro c hc
  rw [mem_squareCells] at hc
  by_cases hcp : c = pos
  · rw [hcp]; exact hvis
  · have hcells := growLoop_okCells (fun cx cy => decide ((cx, cy) ∉ vis))
      s s pos.1 pos.2 s 1
      (by intro i j hi hj hne; omega)
      (c.1 - pos.1) (c.2 - pos.2) (by omega) (by omega)
      (by intro hz; exact hcp (Prod.ext (by omega) (by omega)))
    simp only [decide_eq_true_eq] at hcells
    have hxy : (pos.1 + (c.1 - pos.1), pos.2 + (c.2 - pos.2)) = c :=
      Prod.ext (by omega) (by omega)
    rw [hxy] at hcells
    exact hcells

/-! ### Structure of the glass-dot blob output -/

theorem glassMainBlobs_tileInv (W H : ℕ) (color : Cell → Color) (sens : ℚ) :
    TileInv W H ∅ (tileScan W H (pickGlass W H color sens) ∅) :=
  tileScan_inv (goodPick_pickGlass W H color sens) ∅

theorem glassMainBlobs_pairwise (W H : ℕ) (color : Cell → Color) (sens : ℚ) :
    (glassMainBlobs W H color sens).Pairwise (fun a b => Disjoint a.cells b.cells) :=
  (glassMainBlobs_tileInv W H color sens).disj

theorem glassMainBlobs_bounds (W H : ℕ) (color : Cell → Color) (sens : ℚ) :
    ∀ b ∈ glassMainBlobs W H color sens,
      1 ≤ b.size ∧ b.x + b.size ≤ W ∧ b.y + b.size ≤ H :=
  (glassMainBlobs_tileInv W H color sens).bounds

theorem unionSquares_glassMainBlobs (W H : ℕ) (color : Cell → Color) (sens : ℚ) :
    unionSquares (glassMainBlobs W H color sens) = gridCells W H := by
  apply Finset.Subset.antisymm
  · intro c hc
    rcases mem_unionSquares.mp hc with ⟨b, hb, hcb⟩
    obtain ⟨h1, h2, h3⟩ := glassMainBlobs_bounds W H color sens b hb
    exact squareCells_subset_grid h2 h3 hcb
  · intro c hc
    have hcov := tileScan_covers (goodPick_pickGlass W H color sens) ∅ c hc
    rw [(glassMainBlobs_tileInv W H color sens).visEq] at hcov
    simpa using hcov

theorem coverageSum_glassMainBlobs (W H : ℕ) (color : Cell → Color) (sens : ℚ) :
    coverageSum (glassMainBlobs W H color sens) = W * H := by
  rw [← card_unionSquares (glassMainBlobs_pairwise W H color sens),
      unionSquares_glassMainBlobs, card_gridCells]

theorem gapFillers_shape {p : ℚ} {b f : Blob} (hf : f ∈ gapFillers p b) :
    1 ≤ f.size ∧ b.x ≤ f.x ∧ f.x + f.size ≤ b.x + b.size ∧
      b.y ≤ f.y ∧ f.y + f.size ≤ b.y + b.size := by
  rw [gapFillers] at hf
  by_cases hb : 1 < b.size
  · rw [if_pos hb] at hf
    rcases List.mem_map.mp hf with ⟨g, hg, rfl⟩
    have hinv := tileScan_inv (goodPick_pickLocal b.size) (circleCells b.size p)
    obtain ⟨h1, h2, h3⟩ := hinv.bounds g hg
    simp only
    omega
  · rw [if_neg hb] at hf
    simp at hf

theorem gapFillers_cells_subset {p : ℚ} {b f : Blob} (hf : f ∈ gapFillers p b) :
    f.cells ⊆ b.cells := by
  obtain ⟨h1, h2, h3, h4, h5⟩ := gapFillers_shape hf
  intro c hc
  rw [Blob.cells, mem_squareCells] at hc ⊢
  omega

theorem foldl_tileStep_skip {pick : Finset Cell → Cell → ℕ}
    (L : List Cell) (st : List Blob × Finset Cell)
    (h : ∀ p ∈ L, p ∈ st.2) : L.foldl (tileStep pick) st = st := by
  induction L with
  | nil => rfl
  | cons p t ih =>
    rw [List.foldl_cons,
        show tileStep pick st p = st from by
          rw [tileStep, if_pos (h p (List.mem_cons_self p t))]]
    exact ih (fun q hq => h q (List.mem_cons_of_mem p hq))

/-- For a 2×2 blob, the visual circle intersects all four sub-cells for any
`pixelGap ∈ [0, 100]`: every cell's closest point to the center `(1, 1)` is
the center itself, and the visual radius is at least `0.92`. -/
theorem circleCells_two {p : ℚ} (h0 : 0 ≤ p) (h100 : p ≤ 100) :
    circleCells 2 p = gridCells 2 2 := by
  rw [circleCells]
  apply Finset.filter_true_of_mem
  intro c hc
  rw [mem_gridCells] at hc
  obtain ⟨hx, hy⟩ := hc
  have hrad : 1 / 1000 < visualRadius 2 p * visualRadius 2 p := by
    rw [visualRadius, gapFraction]
    nlinarith
  rcases c with ⟨lx, ly⟩
  simp only at hx hy
  rw [cellIntersectsCircle, decide_eq_true_eq]
  interval_cases lx <;> interval_cases ly <;> (norm_num; linarith)

/-! ### Claim theorems -/

set_option maxRecDepth 400000 in
/-- **C1 (counterexample)**: on a uniform solid-red 7×7 grid with
`similaritySensitivity = 100` and `pixelGap = 0`, one `drawGlassDots` pass
emits a size-7 main blob plus four size-1 corner fillers, so the complete
blob set overlaps (the fillers lie inside the main blob) and the sum of
`size²` is 53 ≠ 49 = gridWidth·gridHeight. -/
theorem glassBlobs_tiling_counterexample :
    coverageSum (glassBlobs 7 7 solidRed 100 0) = 53 ∧
    ¬ coverageSum (glassBlobs 7 7 solidRed 100 0) = 7 * 7 ∧
    ¬ (glassBlobs 7 7 solidRed 100 0).Pairwise
        (fun a b => Disjoint a.cells b.cells) := by
  with_unfolding_all decide

/-- **C1 (amended)**: the blobs of the row-major anchor scan alone (without
the corner fillers of the gap-filling pass) are pairwise non-overlapping
and cover every grid cell exactly once: the sum of `size²` over them equals
`gridWidth * gridHeight`. The corner fillers lie inside their parent blobs
and overlap them, so the complete set including fillers can exceed this. -/
theorem glassMainBlobs_tiling (W H : ℕ) (color : Cell → Color) (sens : ℚ) :
    (glassMainBlobs W H color sens).Pairwise
      (fun a b => Disjoint a.cells b.cells) ∧
    coverageSum (glassMainBlobs W H color sens) = W * H :=
  ⟨glassMainBlobs_pairwise W H color sens, coverageSum_glassMainBlobs W H color sens⟩

/-- **C3**: on a 2×2 uniform solid-red grid, `similaritySensitivity = 100`
yields exactly one blob `{x := 0, y := 0, size := 2}` with no gap fillers
for any `pixelGap ∈ [0, 100]`, and `similaritySensitivity = 0` yields four
size-1 blobs. -/
theorem glass_2x2_solid (p : ℚ) (h0 : 0 ≤ p) (h100 : p ≤ 100) :
    glassBlobs 2 2 solidRed 100 p = [⟨0, 0, 2⟩] ∧
    glassBlobs 2 2 solidRed 0 p =
      [⟨0, 0, 1⟩, ⟨1, 0, 1⟩, ⟨0, 1, 1⟩, ⟨1, 1, 1⟩] := by
  have hfill1 : ∀ a b : ℕ, gapFillers p ⟨a, b, 1⟩ = [] := by
    intro a b
    rw [gapFillers, if_neg (by simp)]
  have hfill2 : gapFillers p ⟨0, 0, 2⟩ = [] := by
    rw [gapFillers, if_pos (by decide), circleCells_two h0 h100, tileScan,
        foldl_tileStep_skip _ _
          (fun q hq => mem_gridCells.mpr (mem_rowMajor.mp hq))]
    rfl
  constructor
  · have hmain : glassMainBlobs 2 2 solidRed 100 = [⟨0, 0, 2⟩] := by
      with_unfolding_all decide
    rw [glassBlobs, hmain]
    simp [hfill2]
  · have hmain0 : glassMainBlobs 2 2 solidRed 0 =
        [⟨0, 0, 1⟩, ⟨1, 0, 1⟩, ⟨0, 1, 1⟩, ⟨1, 1, 1⟩] := by
      set_option maxRecDepth 100000 in with_unfolding_all decide
    rw [glassBlobs, hmain0]
    simp [hfill1]

/-- Witness for `glass_2x2_solid` at `pixelGap = 50`. -/
theorem glass_2x2_solid_witness :
    (0 : ℚ) ≤ 50 ∧ (50 : ℚ) ≤ 100 ∧
      (glassBlobs 2 2 solidRed 100 50 = [⟨0, 0, 2⟩] ∧
        glassBlobs 2 2 solidRed 0 50 =
          [⟨0, 0, 1⟩, ⟨1, 0, 1⟩, ⟨0, 1, 1⟩, ⟨1, 1, 1⟩]) :=
  ⟨by norm_num, by norm_num, glass_2x2_solid 50 (by norm_num) (by norm_num)⟩

set_option maxRecDepth 400000 in
/-- **C4 (counterexample)**: on the 4×4 `quadColors` grid with
`pixelGap = 0`, raising `similaritySensitivity` from 25 to 70 lowers the
average blob size from 2 (four 2×2 blobs) to 5/4 (one 3×3 blob plus seven
size-1 blobs): average blob size is not monotone in the sensitivity. -/
theorem glass_avg_size_not_monotone :
    (25 : ℚ) ≤ 70 ∧
    avgBlobSize (glassBlobs 4 4 quadColors 70 0) <
      avgBlobSize (glassBlobs 4 4 quadColors 25 0) := by
  with_unfolding_all decide

/-- **C4 (amended)**: the per-anchor growth is monotone in the sensitivity:
with the grid, visited set, anchor and limits fixed, a higher
`similaritySensitivity` never yields a smaller `findMaxBlobSize` (but the
average size over a whole pass may still decrease, as
`glass_avg_size_not_monotone` shows). -/
theorem findMaxBlobSize_mono (color : Cell → Color) (vis : Finset Cell)
    {s1 s2 : ℚ} (h0 : 0 ≤ s1) (h12 : s1 ≤ s2)
    (x y limX limY : ℕ) (checkSim : Bool) :
    findMaxBlobSize color vis s1 x y limX limY checkSim ≤
      findMaxBlobSize color vis s2 x y limX limY checkSim := by
  rw [findMaxBlobSize, findMaxBlobSize]
  by_cases h1 : s1 = 0
  · rw [if_pos h1]
    by_cases h2 : s2 = 0
    · rw [if_pos h2]
    · rw [if_neg h2]
      exact growLoop_le _ limX limY x y limX 1
  · have h2 : ¬s2 = 0 := by
      intro h
      exact h1 (le_antisymm (h ▸ h12) h0)
    rw [if_neg h1, if_neg h2]
    apply growLoop_mono
    intro a b hab
    simp only [Bool.and_eq_true, Bool.or_eq_true] at hab ⊢
    refine ⟨hab.1, ?_⟩
    rcases hab.2 with hcs | hd
    · exact Or.inl hcs
    · right
      rw [distLE, decide_eq_true_eq] at hd ⊢
      have ht : similarityThreshold s1 ≤ similarityThreshold s2 := by
        rw [similarityThreshold, similarityThreshold]
        linarith
      have ht0 : 0 ≤ similarityThreshold s1 := by
        rw [similarityThreshold]
        positivity
      exact ⟨le_trans ht0 ht, le_trans hd.2 (by nlinarith)⟩

/-- Witness for `findMaxBlobSize_mono` at sensitivities 25 and 70 on the
`quadColors` grid. -/
theorem findMaxBlobSize_mono_witness :
    (0 : ℚ) ≤ 25 ∧ (25 : ℚ) ≤ 70 ∧
      findMaxBlobSize quadColors ∅ 25 0 0 4 4 true ≤
        findMaxBlobSize quadColors ∅ 70 0 0 4 4 true :=
  ⟨by norm_num, by norm_num,
    findMaxBlobSize_mono quadColors ∅ (by norm_num) (by norm_num) 0 0 4 4 true⟩

/-- **C10**: every blob emitted by one `drawGlassDots` pass (main scan and
corner fillers) has size ≥ 1 and lies inside the grid; every corner filler
lies inside its parent blob's square; and the main-scan blobs alone are
pairwise disjoint squares whose union is exactly the whole grid. -/
theorem glassBlobs_geometry (W H : ℕ) (color : Cell → Color) (sens pixelGap : ℚ) :
    (∀ b ∈ glassBlobs W H color sens pixelGap,
        1 ≤ b.size ∧ b.x + b.size ≤ W ∧ b.y + b.size ≤ H) ∧
    (∀ m ∈ glassMainBlobs W H color sens, ∀ f ∈ gapFillers pixelGap m,
        f.cells ⊆ m.cells) ∧
    (glassMainBlobs W H color sens).Pairwise
      (fun a b => Disjoint a.cells b.cells) ∧
    unionSquares (glassMainBlobs W H color sens) = gridCells W H := by
  refine ⟨?_, fun m hm f hf => gapFillers_cells_subset hf,
    glassMainBlobs_pairwise W H color sens,
    unionSquares_glassMainBlobs W H color sens⟩
  intro b hb
  rw [glassBlobs, List.mem_flatMap] at hb
  rcases hb with ⟨m, hm, hbm⟩
  rcases List.mem_cons.mp hbm with rfl | hf
  · exact glassMainBlobs_bounds W H color sens b hm
  · obtain ⟨h1, h2, h3, h4, h5⟩ := gapFillers_shape hf
    obtain ⟨g1, g2, g3⟩ := glassMainBlobs_bounds W H color sens m hm
    exact ⟨h1, by omega, by omega⟩

/-- Round-trip exactness of the CMYK simulation on integer channels: for
any RGB triple with channels in `[0, 255]`, `cmykToRgb ∘ rgbToCmyk` is the
identity (the algebra cancels exactly over the rationals, so rounding is a
no-op). -/
theorem simulateCmyk_exact (r g b : ℤ) (hr0 : 0 ≤ r) (hr : r ≤ 255)
    (hg0 : 0 ≤ g) (hg : g ≤ 255) (hb0 : 0 ≤ b) (hb : b ≤ 255) :
    simulateCmyk (r : ℚ) (g : ℚ) (b : ℚ) = (r, g, b) := by
  by_cases hall : r = 0 ∧ g = 0 ∧ b = 0
  · obtain ⟨rfl, rfl, rfl⟩ := hall
    have h00 : rgbToCmyk ((0:ℤ):ℚ) ((0:ℤ):ℚ) ((0:ℤ):ℚ) = (0, 0, 0, 1) := by
      rw [rgbToCmyk]
      norm_num
    simp only [simulateCmyk, h00, cmykToRgb]
    norm_num
  · have hM : (0:ℚ) < max ((r:ℚ)/255) (max ((g:ℚ)/255) ((b:ℚ)/255)) := by
      rcases not_and_or.mp hall with h | hgb
      · have hrp : (0:ℚ) < (r:ℚ)/255 := by
          have h1 : 0 < r := lt_of_le_of_ne hr0 (Ne.symm h)
          have h2 : (0:ℚ) < (r:ℚ) := by exact_mod_cast h1
          linarith
        exact lt_max_iff.mpr (Or.inl hrp)
      · rcases not_and_or.mp hgb with h | h
        · have hgp : (0:ℚ) < (g:ℚ)/255 := by
            have h1 : 0 < g := lt_of_le_of_ne hg0 (Ne.symm h)
            have h2 : (0:ℚ) < (g:ℚ) := by exact_mod_cast h1
            linarith
          exact lt_max_iff.mpr (Or.inr (lt_max_iff.mpr (Or.inl hgp)))
        · have hbp : (0:ℚ) < (b:ℚ)/255 := by
            have h1 : 0 < b := lt_of_le_of_ne hb0 (Ne.symm h)
            have h2 : (0:ℚ) < (b:ℚ) := by exact_mod_cast h1
            linarith
          exact lt_max_iff.mpr (Or.inr (lt_max_iff.mpr (Or.inr hbp)))
    set M := max ((r:ℚ)/255) (max ((g:ℚ)/255) ((b:ℚ)/255)) with hMdef
    have hk : ¬((1:ℚ) - M = 1) := by
      intro h
      have hM0 : M = 0 := by linarith
      exact absurd hM0 (ne_of_gt hM)
    have hMne : M ≠ 0 := ne_of_gt hM
    have hcm : rgbToCmyk (r : ℚ) (g : ℚ) (b : ℚ) =
        ((1 - (r:ℚ)/255 - (1 - M)) / M, (1 - (g:ℚ)/255 - (1 - M)) / M,
          (1 - (b:ℚ)/255 - (1 - M)) / M, 1 - M) := by
      rw [rgbToCmyk]
      rw [if_neg hk]
      have e : (1:ℚ) - (1 - M) = M := by ring
      rw [e]
    simp only [simulateCmyk, hcm, cmykToRgb, Prod.mk.injEq]
    refine ⟨?_, ?_, ?_⟩
    · rw [show (255:ℚ) * (1 - (1 - (r:ℚ)/255 - (1 - M)) / M) * (1 - (1 - M)) = (r:ℚ) by
        field_simp
        ring]
      exact round_intCast r
    · rw [show (255:ℚ) * (1 - (1 - (g:ℚ)/255 - (1 - M)) / M) * (1 - (1 - M)) = (g:ℚ) by
        field_simp
        ring]
      exact round_intCast g
    · rw [show (255:ℚ) * (1 - (1 - (b:ℚ)/255 - (1 - M)) / M) * (1 - (1 - M)) = (b:ℚ) by
        field_simp
        ring]
      exact round_intCast b

/-- **C5**: the CMYK round trip `simulateCmyk` reproduces any integer RGB
triple in `[0, 255]³` within ±1 per channel (in fact exactly), and maps
pure black `(0, 0, 0)` — the `k = 1` case guarded against division by zero
— exactly to `(0, 0, 0)`. -/
theorem cmyk_round_trip (r g b : ℤ) (hr0 : 0 ≤ r) (hr : r ≤ 255)
    (hg0 : 0 ≤ g) (hg : g ≤ 255) (hb0 : 0 ≤ b) (hb : b ≤ 255) :
    (|(simulateCmyk (r:ℚ) (g:ℚ) (b:ℚ)).1 - r| ≤ 1 ∧
     |(simulateCmyk (r:ℚ) (g:ℚ) (b:ℚ)).2.1 - g| ≤ 1 ∧
     |(simulateCmyk (r:ℚ) (g:ℚ) (b:ℚ)).2.2 - b| ≤ 1) ∧
    (r = 0 ∧ g = 0 ∧ b = 0 →
      simulateCmyk (r:ℚ) (g:ℚ) (b:ℚ) = (0, 0, 0)) := by
  have he := simulateCmyk_exact r g b hr0 hr hg0 hg hb0 hb
  rw [he]
  constructor
  · norm_num
  · rintro ⟨rfl, rfl, rfl⟩
    rfl

/-- Witness for `cmyk_round_trip` at `(12, 34, 0)`. -/
theorem cmyk_round_trip_witness :
    ((0:ℤ) ≤ 12 ∧ (12:ℤ) ≤ 255 ∧ (0:ℤ) ≤ 34 ∧ (34:ℤ) ≤ 255 ∧
      (0:ℤ) ≤ 0 ∧ (0:ℤ) ≤ 255) ∧
    ((|(simulateCmyk ((12:ℤ):ℚ) ((34:ℤ):ℚ) ((0:ℤ):ℚ)).1 - 12| ≤ 1 ∧
      |(simulateCmyk ((12:ℤ):ℚ) ((34:ℤ):ℚ) ((0:ℤ):ℚ)).2.1 - 34| ≤ 1 ∧
      |(simulateCmyk ((12:ℤ):ℚ) ((34:ℤ):ℚ) ((0:ℤ):ℚ)).2.2 - 0| ≤ 1) ∧
     ((12:ℤ) = 0 ∧ (34:ℤ) = 0 ∧ (0:ℤ) = 0 →
       simulateCmyk ((12:ℤ):ℚ) ((34:ℤ):ℚ) ((0:ℤ):ℚ) = (0, 0, 0))) :=
  ⟨⟨by norm_num, by norm_num, by norm_num, by norm_num, le_refl 0, by norm_num⟩,
    cmyk_round_trip 12 34 0 (by norm_num) (by norm_num) (by norm_num)
      (by norm_num) (le_refl 0) (by norm_num)⟩

/-- **C6**: with the neutral sliders `exposure = 50`, `contrast = 50`, the
combined luminance remap is the identity on every integer luminance in
`[0, 255]`, both in the Value Aliasing transform (`vaFinalGray`, with the
grayscale weights summing to 1 on an `L L L` cell) and in the Glyph Mirror
transform (`pfpFinalGray`). -/
theorem neutral_remap_identity (L : ℤ) (h0 : 0 ≤ L) (h255 : L ≤ 255) :
    vaFinalGray 50 50 (L:ℚ) (L:ℚ) (L:ℚ) = L ∧ pfpFinalGray 50 50 (L:ℚ) = L := by
  have hc : calculatedContrast 50 = 1 := by
    rw [calculatedContrast, if_pos (by norm_num)]
    norm_num
  have he : calculatedExposure 50 = 0 := by
    rw [calculatedExposure]
    norm_num
  have hclamp : lumaClampRound ((L:ℤ):ℚ) = L := by
    rw [lumaClampRound, min_eq_right (by exact_mod_cast h255),
        max_eq_right (by exact_mod_cast h0), round_intCast]
  constructor
  · simp only [vaFinalGray]
    rw [hc, he,
        show (((0.299 * (L:ℚ) + 0.587 * (L:ℚ) + 0.114 * (L:ℚ)) / 255 - 0.5) * 1
            + 0.5) * 255 + 0 = ((L:ℤ):ℚ) by ring]
    exact hclamp
  · simp only [pfpFinalGray]
    rw [hc, he,
        show (((L:ℚ) / 255 - 0.5) * 1 + 0.5) * 255 + 0 = ((L:ℤ):ℚ) by ring]
    exact hclamp

/-- Witness for `neutral_remap_identity` at `L = 107`. -/
theorem neutral_remap_identity_witness :
    (0:ℤ) ≤ 107 ∧ (107:ℤ) ≤ 255 ∧
      (vaFinalGray 50 50 ((107:ℤ):ℚ) ((107:ℤ):ℚ) ((107:ℤ):ℚ) = 107 ∧
        pfpFinalGray 50 50 ((107:ℤ):ℚ) = 107) :=
  ⟨by norm_num, by norm_num, neutral_remap_identity 107 (by norm_num) (by norm_num)⟩

set_option maxRecDepth 100000 in
/-- **C2 (counterexample)**: the core does not clamp out-of-range settings
before use: an exposure slider of 150 yields remapped luminance 200 at
black input, while the clamped boundary value 100 yields 100, so the
outputs differ. -/
theorem clamp_settings_counterexample :
    vaFinalGray 150 50 0 0 0 = 200 ∧ vaFinalGray 100 50 0 0 0 = 100 ∧
      vaFinalGray 150 50 0 0 0 ≠ vaFinalGray 100 50 0 0 0 := by
  with_unfolding_all decide

/-- **C2 (amended)**: the rendering core does not clamp out-of-range slider
settings; instead, the luminance remap clamps its final value into
`[0, 255]`, so even arbitrary out-of-range exposure/contrast (or input
channel) values produce in-range output luminances. -/
theorem remap_output_clamped (e c r g b v : ℚ) :
    (0 ≤ vaFinalGray e c r g b ∧ vaFinalGray e c r g b ≤ 255) ∧
    (0 ≤ pfpFinalGray e c v ∧ pfpFinalGray e c v ≤ 255) := by
  have key : ∀ q : ℚ, 0 ≤ lumaClampRound q ∧ lumaClampRound q ≤ 255 := by
    intro q
    rw [lumaClampRound, round_eq]
    constructor
    · rw [Int.le_floor]
      have h1 : (0:ℚ) ≤ max 0 (min 255 q) := le_max_left 0 (min 255 q)
      push_cast
      linarith
    · have h2 : max 0 (min 255 q) + 1/2 ≤ (255:ℚ) + 1/2 := by
        have h3 : min 255 q ≤ 255 := min_le_left _ _
        have h4 : max 0 (min 255 q) ≤ 255 := max_le (by norm_num) h3
        linarith
      calc ⌊max 0 (min 255 q) + 1/2⌋ ≤ ⌊(255:ℚ) + 1/2⌋ := Int.floor_mono h2
        _ = 255 := by
            rw [Int.floor_eq_iff]
            constructor <;> norm_num
  exact ⟨key _, key _⟩

theorem sum_map_ones {α : Type} (l : List α) (f : α → ℕ) (h : ∀ a ∈ l, f a = 1) :
    (l.map f).sum = l.length := by
  induction l with
  | cons a t ih =>
    rw [List.map_cons, List.sum_cons, h a (List.mem_cons_self a t),
        ih (fun b hb => h b (List.mem_cons_of_mem a hb)), List.length_cons]
    omega
  | nil => rfl

theorem sum_flatMap_eq {α : Type} (l : List α) (g : α → List ℕ) (n : ℕ)
    (h : ∀ a ∈ l, (g a).sum = n) : (l.flatMap g).sum = l.length * n := by
  induction l with
  | nil => simp
  | cons a t ih =>
    rw [List.flatMap_cons, List.sum_append, h a (List.mem_cons_self a t),
        ih (fun b hb => h b (List.mem_cons_of_mem a hb)), List.length_cons]
    ring

set_option maxRecDepth 100000 in
/-- **C7 (counterexample)**: at the minimum resolution (diameter 9, from
`resolution = 0`), the cell `(0, 2)` has its center inside the circle
(distance² = 20 ≤ 20.25), so the fully-inside shortcut assigns it coverage
1 — but full 5×5 supersampling of the same cell yields only 14 of 25
sub-samples inside, coverage 14/25 ≠ 1. -/
theorem coverage_shortcut_counterexample :
    pfpDiameter 0 = 9 ∧ maskCell 9 0 2 = 1 ∧ maskCellFull 9 0 2 = 14 / 25 ∧
      maskCell 9 0 2 ≠ maskCellFull 9 0 2 := by
  with_unfolding_all decide

/-- **C7 (amended)**: the agreement between the fully-inside shortcut and
full supersampling holds in the direction the code relies on for cells
whose 25 sub-samples all fall inside the circle: there the supersampled
coverage is 25/25 = 1, the cell center (which is sub-sample `(2, 2)`) is
inside the radius, and the shortcut also assigns exactly 1. For cells whose
center is inside but near the boundary, supersampling can give `< 1`
(`coverage_shortcut_counterexample`). -/
theorem coverage_full_agrees_shortcut (d x y : ℕ)
    (h : ∀ subX subY : ℕ, subX < 5 → subY < 5 → subSampleHit d x y subX subY = true) :
    maskCell d x y = 1 ∧ maskCellFull d x y = 1 ∧ subSamplesInside d x y = 25 := by
  have hcenter : ((x:ℚ) - maskCenter d) * ((x:ℚ) - maskCenter d) +
      ((y:ℚ) - maskCenter d) * ((y:ℚ) - maskCenter d) ≤
        maskRadius d * maskRadius d := by
    have h22 := h 2 2 (by norm_num) (by norm_num)
    rw [subSampleHit, decide_eq_true_eq] at h22
    have e1 : ((x : ℚ) - 1 / 2 + (((2:ℕ) : ℚ) + 1 / 2) / 5) = (x:ℚ) := by
      push_cast
      ring
    have e2 : ((y : ℚ) - 1 / 2 + (((2:ℕ) : ℚ) + 1 / 2) / 5) = (y:ℚ) := by
      push_cast
      ring
    rw [e1, e2] at h22
    exact h22
  have hr0 : (0:ℚ) ≤ maskRadius d := by
    rw [maskRadius]
    exact div_nonneg (Nat.cast_nonneg d) (by norm_num)
  have hlt : ((x:ℚ) - maskCenter d) * ((x:ℚ) - maskCenter d) +
      ((y:ℚ) - maskCenter d) * ((y:ℚ) - maskCenter d) <
        (maskRadius d + 3 / 2) * (maskRadius d + 3 / 2) := by
    nlinarith
  have h25 : subSamplesInside d x y = 25 := by
    rw [subSamplesInside]
    refine (sum_flatMap_eq _ _ 5 ?_).trans ?_
    · intro subY hY
      refine (sum_map_ones _ _ ?_).trans (List.length_range 5)
      intro subX hX
      exact if_pos (h subX subY (List.mem_range.mp hX) (List.mem_range.mp hY))
    · rw [List.length_range]
  refine ⟨?_, ?_, h25⟩
  · simp only [maskCell]
    rw [if_pos hcenter]
  · simp only [maskCellFull]
    rw [if_pos hlt, h25]
    norm_num

set_option maxRecDepth 100000 in
/-- Witness for `coverage_full_agrees_shortcut` at the center cell `(4, 4)`
of the diameter-9 mask. -/
theorem coverage_full_agrees_shortcut_witness :
    (∀ subX : ℕ, subX < 5 → ∀ subY : ℕ, subY < 5 →
        subSampleHit 9 4 4 subX subY = true) ∧
      (maskCell 9 4 4 = 1 ∧ maskCellFull 9 4 4 = 1 ∧ subSamplesInside 9 4 4 = 25) := by
  have hball : ∀ subX : ℕ, subX < 5 → ∀ subY : ℕ, subY < 5 →
      subSampleHit 9 4 4 subX subY = true := by
    with_unfolding_all decide
  exact ⟨hball,
    coverage_full_agrees_shortcut 9 4 4 (fun a b ha hb => hball a ha b hb)⟩

theorem markerBlobs_spec (bs : List Blob) :
    (markerBlobs bs).length = markerCount bs ∧
    (markerBlobs bs ++ (sortedAllBlobs bs).drop (markerCount bs)).Perm bs ∧
    ∀ a ∈ markerBlobs bs, ∀ b ∈ (sortedAllBlobs bs).drop (markerCount bs),
      b.size ≤ a.size := by
  have hperm : (sortedAllBlobs bs).Perm bs := List.mergeSort_perm bs _
  have hlen : (sortedAllBlobs bs).length = bs.length := hperm.length_eq
  have hmc : markerCount bs ≤ bs.length := by
    rw [markerCount]
    have h1 : ⌈(bs.length : ℚ) * 0.04⌉₊ ≤ bs.length := by
      rw [Nat.ceil_le]
      have h2 : (bs.length : ℚ) * 0.04 ≤ (bs.length : ℚ) * 1 :=
        mul_le_mul_of_nonneg_left (by norm_num) (Nat.cast_nonneg _)
      simpa using h2
    omega
  refine ⟨?_, ?_, ?_⟩
  · rw [markerBlobs, List.length_take, hlen]
    omega
  · rw [markerBlobs, List.take_append_drop]
    exact hperm
  · have hsorted : (sortedAllBlobs bs).Pairwise
        (fun a b => (decide (b.size ≤ a.size)) = true) := by
      refine List.sorted_mergeSort ?_ ?_ bs
      · intro a b c hab hbc
        simp only [decide_eq_true_eq] at hab hbc ⊢
        omega
      · intro a b
        simp only [Bool.or_eq_true, decide_eq_true_eq]
        omega
    rw [← List.take_append_drop (markerCount bs) (sortedAllBlobs bs),
        List.pairwise_append] at hsorted
    intro a ha b hb
    have h3 := hsorted.2.2 a ha b hb
    simpa using h3

/-- **C8**: after one `drawGlassDots` pass produces all blobs (corner
fillers included and before the size-threshold filter), exactly
`min(⌈4% of the blob count⌉, 5)` blobs are flagged for markers, and they
dominate by size: the flagged list plus the rest of the size-descending
sort is a permutation of all produced blobs, and every flagged blob's size
is at least every unflagged blob's size. -/
theorem marker_selection (W H : ℕ) (color : Cell → Color) (sens pixelGap : ℚ) :
    (markerBlobs (glassBlobs W H color sens pixelGap)).length =
      min ⌈((glassBlobs W H color sens pixelGap).length : ℚ) * 0.04⌉₊ 5 ∧
    (markerBlobs (glassBlobs W H color sens pixelGap) ++
        (sortedAllBlobs (glassBlobs W H color sens pixelGap)).drop
          (markerCount (glassBlobs W H color sens pixelGap))).Perm
      (glassBlobs W H color sens pixelGap) ∧
    ∀ a ∈ markerBlobs (glassBlobs W H color sens pixelGap),
      ∀ b ∈ (sortedAllBlobs (glassBlobs W H color sens pixelGap)).drop
          (markerCount (glassBlobs W H color sens pixelGap)),
        b.size ≤ a.size := by
  obtain ⟨h1, h2, h3⟩ := markerBlobs_spec (glassBlobs W H color sens pixelGap)
  exact ⟨by rw [h1, markerCount], h2, h3⟩

theorem mem_ite_singleton {α : Type} {c : Prop} [Decidable c] {a x : α}
    (h : x ∈ (if c then [a] else [])) : x = a := by
  split at h
  · simpa using h
  · simp at h

/-- **C9**: a grid cell whose sampled alpha is at or below the transparency
threshold 10 is stored as `null` in the photo-widget color matrix, and the
compositing loop of `drawPhotoWidgetMatrix` never emits a dot for a `null`
cell (every drawn dot's cell is non-null). -/
theorem transparent_cells_null_and_not_drawn (W H : ℕ) (pix : ℕ → ℕ → RGBA)
    (x y : ℕ) (hx : x < W) (hy : y < H) (ha : (pix x y).a ≤ 10) :
    ((photoWidgetMatrix W H pix).getD y []).getD x (some ⟨0, 0, 0, 0⟩) = none ∧
    ∀ (matrix : List (List (Option RGBA))) (cw ch pg : ℚ) (ic ia : Bool)
      (dot : DrawnDot), dot ∈ drawPhotoWidgetDots matrix cw ch pg ic ia →
        (matrix.getD dot.y []).getD dot.x none ≠ none := by
  constructor
  · have h1 : (photoWidgetMatrix W H pix).getD y [] =
        (List.range W).map (fun x => photoWidgetCell (pix x y)) := by
      rw [photoWidgetMatrix, List.getD_eq_getElem?_getD, List.getElem?_map]
      rw [List.getElem?_range hy]
      rfl
    rw [h1, List.getD_eq_getElem?_getD, List.getElem?_map, List.getElem?_range hx]
    show Option.getD (some (photoWidgetCell (pix x y))) _ = none
    rw [Option.getD_some, photoWidgetCell, if_pos ha]
  · intro matrix cw ch pg ic ia dot hdot
    simp only [drawPhotoWidgetDots, List.mem_flatMap, List.mem_range] at hdot
    obtain ⟨y', hy', x', hx', hmem⟩ := hdot
    rcases hcell : (matrix.getD y' []).getD x' none with _ | p
    · rw [hcell] at hmem
      simp at hmem
    · rw [hcell] at hmem
      split at hmem
      · simp at hmem
      · next q heq =>
        have hda := mem_ite_singleton hmem
        subst hda
        show (matrix.getD y' []).getD x' none ≠ none
        rw [hcell]
        exact Option.some_ne_none p

/-- Witness for `transparent_cells_null_and_not_drawn` on a 1×1 image whose
only pixel has alpha 5. -/
theorem transparent_cells_witness :
    0 < 1 ∧ (((fun _ _ => (⟨1, 2, 3, 5⟩ : RGBA)) : ℕ → ℕ → RGBA) 0 0).a ≤ 10 ∧
    (((photoWidgetMatrix 1 1 (fun _ _ => ⟨1, 2, 3, 5⟩)).getD 0 []).getD 0
        (some ⟨0, 0, 0, 0⟩) = none ∧
      ∀ (matrix : List (List (Option RGBA))) (cw ch pg : ℚ) (ic ia : Bool)
        (dot : DrawnDot), dot ∈ drawPhotoWidgetDots matrix cw ch pg ic ia →
          (matrix.getD dot.y []).getD dot.x none ≠ none) :=
  ⟨Nat.one_pos, by norm_num,
    transparent_cells_null_and_not_drawn 1 1 (fun _ _ => ⟨1, 2, 3, 5⟩) 0 0
      Nat.one_pos Nat.one_pos (by norm_num)⟩

end Matrices
